import Mathlib

/-!
Verification of the `roll` dice-notation program.

The source is a small Rust program with four expression variants
(`DiceRoll`, `Scalar`, `Add`, `Subtract`), a recursive-descent parser
(`roll`, `read_operand`, `read_u32`, `chomp`), an evaluator (`get_value`,
`roll_die`) and a renderer (the `Display` impls).  This file is a shallow
embedding of that code:

* strings are `String` / `List Char`;
* the Rust `u32` / `i32` arithmetic is `Nat` / `Int` with explicit
  reduction modulo `2 ^ 32` at the operations where the machine width
  matters (`read_u32` accumulation, the `u32` sum in `DiceRoll::get_value`,
  the `as i32` casts, `i32` addition and subtraction);
* the random generator is an explicit stream `draws : Nat → Nat` of `u32`
  samples consumed left to right, threaded by an index;
* the Rust `%` operator, which faults on a zero divisor, is modelled by an
  `Option` result (`none` = fault).

The parser main loop of the Rust source is a `while` loop that consumes at
least one character per iteration; it is embedded as `rollLoopF`, which is
structurally recursive on an explicit fuel argument so that all
definitions compute by kernel reduction.  `rollLoop` instantiates the fuel
with `length + 1`; `rollLoopF_mono` proves any fuel above the input length
gives the same result, and the `rollLoop_stop` / `rollLoop_missing` /
`rollLoop_invalid` / `rollLoop_step_add` / `rollLoop_step_sub` lemmas
recover exactly the loop's recurrence, so the fuel is an artifact with no
semantic content.
-/

/-- Unicode `White_Space` code points, the classification used by Rust's
`char::is_whitespace`. -/
def rustIsWhitespace (c : Char) : Bool :=
  let n := c.toNat
  decide ((9 ≤ n ∧ n ≤ 13) ∨ n = 32 ∨ n = 133 ∨ n = 160 ∨ n = 5760 ∨
    (8192 ≤ n ∧ n ≤ 8202) ∨ n = 8232 ∨ n = 8233 ∨ n = 8239 ∨ n = 8287 ∨ n = 12288)

/-- The expression tree: `Scalar`, `DiceRoll`, `Add`, `Subtract` of the
source, as one inductive.  `value` is the `i32` of `Scalar`; `count` and
`sides` are the `u32` fields of `DiceRoll`. -/
inductive Expression : Type where
  | scalar (value : Int)
  | diceRoll (count sides : Nat)
  | add (lhs rhs : Expression)
  | sub (lhs rhs : Expression)
  deriving DecidableEq, Repr

/-- The two parse failures of the source.  The Rust `ParseError` carries
only a static message, recovered by `ParseError.message`. -/
inductive ParseError : Type where
  | invalidRollDefinition
  | missingOperand
  deriving DecidableEq, Repr

/-- The `message` field of the Rust `ParseError` values. -/
def ParseError.message : ParseError → String
  | .invalidRollDefinition => "Invalid roll definition"
  | .missingOperand => "Missing operand"

/-- `chomp`: skip leading whitespace (the `while peek().is_whitespace()`
loop; `unwrap_or('_')` makes it stop at end of input). -/
def chomp : List Char → List Char
  | [] => []
  | c :: rest => if rustIsWhitespace c then chomp rest else c :: rest

/-- The digit-accumulation loop of `read_u32`: `result *= 10;
result += c - '0'` in wrapping `u32` arithmetic, while the next character
is an ASCII digit. -/
def readDigits : List Char → Nat → Nat × List Char
  | [], acc => (acc, [])
  | c :: rest, acc =>
    if c.isDigit then readDigits rest ((acc * 10 + (c.toNat - 48)) % 4294967296)
    else (acc, c :: rest)

/-- `read_u32`: read an optional run of ASCII digits as a wrapped `u32`;
return `default` when no digit is present. -/
def read_u32 (cs : List Char) (default : Nat) : Nat × List Char :=
  match cs with
  | [] => (default, [])
  | c :: rest =>
    if c.isDigit then readDigits (c :: rest) 0
    else (default, c :: rest)

/-- The Rust `n as i32` cast of a `u32` value. -/
def u32_as_i32 (n : Nat) : Int :=
  if n < 2147483648 then (n : Int) else (n : Int) - 4294967296

/-- Wrapping `i32` arithmetic (the release-profile semantics of Rust
`i32` addition and subtraction). -/
def i32wrap (z : Int) : Int :=
  (z + 2147483648) % 4294967296 - 2147483648

/-- `read_operand`: `None` unless the next character is a digit or `d`;
then an optional digit run (`count`, default 1), and either
`d` followed by an optional digit run (`sides`, default 6) giving a
`DiceRoll`, or a `Scalar` holding the digit run cast `as i32`. -/
def read_operand (cs : List Char) : Option (Expression × List Char) :=
  match cs with
  | [] => none
  | c :: _ =>
    if c.isDigit ∨ c = 'd' then
      match (read_u32 cs 1).2 with
      | 'd' :: rest =>
        some (.diceRoll (read_u32 cs 1).1 (read_u32 rest 6).1, (read_u32 rest 6).2)
      | _ => some (.scalar (u32_as_i32 (read_u32 cs 1).1), (read_u32 cs 1).2)
    else none

/-- `roll_die(sides)`: `gen::<u32>() % sides + 1`; the `%` faults when
`sides = 0`, modelled as `none`.  `rng` is the drawn `u32` sample. -/
def roll_die (rng : Nat) (sides : Nat) : Option Nat :=
  if sides = 0 then none else some (rng % sides + 1)

/-- The summation loop of `DiceRoll::get_value`: a wrapping `u32` sum of
`n` die rolls, drawing `draws i, draws (i+1), …` in order. -/
def diceSum (sides : Nat) (draws : Nat → Nat) (i : Nat) : Nat → Option Nat
  | 0 => some 0
  | n + 1 =>
    match diceSum sides draws i n with
    | some s =>
      match roll_die (draws (i + n)) sides with
      | some r => some ((s + r) % 4294967296)
      | none => none
    | none => none

/-- `get_value` of each variant: `Scalar` returns its value, `DiceRoll`
the `u32` sum of `count` rolls cast `as i32`, `Add`/`Subtract` the wrapped
`i32` sum/difference, evaluating `lhs` before `rhs`.  The draw index is
threaded left to right; a fault anywhere is `none`. -/
def get_value : Expression → (Nat → Nat) → Nat → Option (Int × Nat)
  | .scalar v, _, i => some (v, i)
  | .diceRoll count sides, draws, i =>
    (diceSum sides draws i count).map (fun s => (u32_as_i32 s, i + count))
  | .add l r, draws, i =>
    match get_value l draws i with
    | some (a, j) =>
      match get_value r draws j with
      | some (b, k) => some (i32wrap (a + b), k)
      | none => none
    | none => none
  | .sub l r, draws, i =>
    match get_value l draws i with
    | some (a, j) =>
      match get_value r draws j with
      | some (b, k) => some (i32wrap (a - b), k)
      | none => none
    | none => none

/-- Little-endian decimal digits of `n`; the fuel (first argument) only
needs `n ≤ fuel` and makes the recursion structural. -/
def digitsLE : Nat → Nat → List Nat
  | 0, _ => []
  | fuel + 1, n => if n = 0 then [] else n % 10 :: digitsLE fuel (n / 10)

/-- Decimal rendering of a natural number as characters, most significant
digit first (`"0"` for zero), as Rust's `Display` for unsigned values. -/
def natToDecChars (n : Nat) : List Char :=
  if n = 0 then ['0']
  else ((digitsLE n n).reverse.map fun d => Char.ofNat (48 + d))

/-- The `Display` impls: `Scalar` as the signed decimal, `DiceRoll` as
`"{count}d{sides}"` with the count omitted when it is 1, `Add` as
`"{lhs} + {rhs}"`, `Subtract` as `"{lhs} - {rhs}"`. -/
def renderChars : Expression → List Char
  | .scalar v => (if v < 0 then ['-'] else []) ++ natToDecChars v.natAbs
  | .diceRoll count sides =>
    (if count = 1 then [] else natToDecChars count) ++ 'd' :: natToDecChars sides
  | .add l r => renderChars l ++ ' ' :: '+' :: ' ' :: renderChars r
  | .sub l r => renderChars l ++ ' ' :: '-' :: ' ' :: renderChars r

/-- `to_string()` of an expression. -/
def render (e : Expression) : String := ⟨renderChars e⟩

/-- The parser main loop of `roll`, with explicit fuel: while characters
remain, skip whitespace, take one character as the operator, skip
whitespace, read the operand; absence of the operand is `Missing operand`,
an operator other than `+`/`-` (with an operand present) is
`Invalid roll definition`; otherwise fold the operand into the
accumulated result and continue.  The fuel-exhausted branch is
unreachable from `roll` (each iteration consumes at least one character;
see `rollLoopF_mono` and the `rollLoop_step_add` / `rollLoop_step_sub`
lemmas). -/
def rollLoopF : Nat → List Char → Expression → Except ParseError Expression
  | _, [], result => .ok result
  | 0, _ :: _, result => .ok result
  | fuel + 1, c :: cs, result =>
    match chomp (c :: cs) with
    | [] => .ok result
    | op :: cs2 =>
      match read_operand (chomp cs2) with
      | some (rhs, cs4) =>
        if op = '+' then rollLoopF fuel cs4 (.add result rhs)
        else if op = '-' then rollLoopF fuel cs4 (.sub result rhs)
        else .error .invalidRollDefinition
      | none => .error .missingOperand

/-- The parser main loop at its (sufficient) fuel. -/
def rollLoop (cs : List Char) (result : Expression) : Except ParseError Expression :=
  rollLoopF (cs.length + 1) cs result

/-- `roll`: skip leading whitespace, read the first operand (failing with
`Invalid roll definition` when absent), then run the main loop. -/
def roll (s : String) : Except ParseError Expression :=
  let cs := chomp s.data
  match read_operand cs with
  | none => .error .invalidRollDefinition
  | some (result, cs1) => rollLoop cs1 result

/-- Leaf test: `Scalar` and `DiceRoll` nodes. -/
def isLeaf : Expression → Bool
  | .scalar _ => true
  | .diceRoll _ _ => true
  | .add _ _ => false
  | .sub _ _ => false

/-- Every `Add`/`Subtract` node in the tree has a leaf as its `rhs`. -/
def rhsLeaf : Expression → Bool
  | .scalar _ => true
  | .diceRoll _ _ => true
  | .add l r => rhsLeaf l && rhsLeaf r && isLeaf r
  | .sub l r => rhsLeaf l && rhsLeaf r && isLeaf r

/-- The tree contains no `DiceRoll` node. -/
def noDice : Expression → Bool
  | .scalar _ => true
  | .diceRoll _ _ => false
  | .add l r => noDice l && noDice r
  | .sub l r => noDice l && noDice r

/-- Machine-width well-formedness of a tree as the parser builds it:
scalars are `i32` values, counts and sides are `u32` values. -/
def wfE : Expression → Bool
  | .scalar v => decide (-2147483648 ≤ v) && decide (v < 2147483648)
  | .diceRoll count sides => decide (count < 4294967296) && decide (sides < 4294967296)
  | .add l r => wfE l && wfE r
  | .sub l r => wfE l && wfE r

/-- Every scalar in the tree is nonnegative. -/
def scalarsNonneg : Expression → Bool
  | .scalar v => decide (0 ≤ v)
  | .diceRoll _ _ => true
  | .add l r => scalarsNonneg l && scalarsNonneg r
  | .sub l r => scalarsNonneg l && scalarsNonneg r

/-! ## Basic facts about the scanning helpers -/

theorem chomp_length (cs : List Char) : (chomp cs).length ≤ cs.length := by
  induction cs with
  | nil => simp [chomp]
  | cons c rest ih =>
    simp only [chomp]
    split
    · exact Nat.le_trans ih (Nat.le_succ _)
    · exact Nat.le_refl _

theorem chomp_cons_ws {c : Char} (h : rustIsWhitespace c = true) (cs : List Char) :
    chomp (c :: cs) = chomp cs := by
  simp [chomp, h]

theorem chomp_cons_not_ws {c : Char} (h : rustIsWhitespace c = false) (cs : List Char) :
    chomp (c :: cs) = c :: cs := by
  simp [chomp, h]

theorem readDigits_length (cs : List Char) : ∀ acc, (readDigits cs acc).2.length ≤ cs.length := by
  induction cs with
  | nil => intro acc; simp [readDigits]
  | cons c rest ih =>
    intro acc
    simp only [readDigits]
    split
    · exact Nat.le_trans (ih _) (Nat.le_succ _)
    · exact Nat.le_refl _

theorem read_u32_length (cs : List Char) (d : Nat) : (read_u32 cs d).2.length ≤ cs.length := by
  cases cs with
  | nil => simp [read_u32]
  | cons c rest =>
    simp only [read_u32]
    split
    · exact readDigits_length _ _
    · exact Nat.le_refl _

theorem readDigits_lt (cs : List Char) :
    ∀ acc, acc < 4294967296 → (readDigits cs acc).1 < 4294967296 := by
  induction cs with
  | nil => intro acc h; simpa [readDigits] using h
  | cons c rest ih =>
    intro acc h
    simp only [readDigits]
    split
    · exact ih _ (Nat.mod_lt _ (by norm_num))
    · simpa using h

theorem read_u32_lt {d : Nat} (cs : List Char) (hd : d < 4294967296) :
    (read_u32 cs d).1 < 4294967296 := by
  cases cs with
  | nil => simpa [read_u32] using hd
  | cons c rest =>
    simp only [read_u32]
    split
    · exact readDigits_lt _ _ (by norm_num)
    · simpa using hd

theorem u32_as_i32_bounds {n : Nat} (h : n < 4294967296) :
    -2147483648 ≤ u32_as_i32 n ∧ u32_as_i32 n < 2147483648 := by
  unfold u32_as_i32
  split <;> omega

/-! ## Facts about `read_operand` -/

theorem read_operand_length {cs cs' : List Char} {e : Expression}
    (h : read_operand cs = some (e, cs')) : cs'.length ≤ cs.length := by
  cases cs with
  | nil => simp [read_operand] at h
  | cons c rest =>
    simp only [read_operand] at h
    split at h
    · split at h
      · rename_i rest2 heq
        simp only [Option.some.injEq, Prod.mk.injEq] at h
        have h2 := read_u32_length rest2 6
        have h1 := read_u32_length (c :: rest) 1
        rw [heq] at h1
        rw [← h.2]
        simp only [List.length_cons] at h1 ⊢
        omega
      · simp only [Option.some.injEq, Prod.mk.injEq] at h
        rw [← h.2]
        exact read_u32_length (c :: rest) 1
    · exact absurd h (by simp)

/-! ## The main loop: the fuel is irrelevant above the input length -/

theorem rollLoopF_mono :
    ∀ (f g : Nat) (cs : List Char) (r : Expression), cs.length < f → cs.length < g →
      rollLoopF f cs r = rollLoopF g cs r := by
  intro f
  induction f with
  | zero => intro g cs r hf; omega
  | succ n ih =>
    intro g cs r hf hg
    cases cs with
    | nil => cases g with
      | zero => omega
      | succ m => rfl
    | cons c rest =>
      cases g with
      | zero => omega
      | succ m =>
        simp only [rollLoopF]
        rcases h1 : chomp (c :: rest) with _ | ⟨op, cs2⟩
        · simp only [h1]
        · simp only [h1]
          have hcs2 : cs2.length < rest.length + 1 := by
            have := chomp_length (c :: rest)
            rw [h1] at this
            simp only [List.length_cons] at this
            omega
          rcases h2 : read_operand (chomp cs2) with _ | ⟨rhs, cs4⟩
          · simp only [h2]
          · simp only [h2]
            have hcs4 : cs4.length < rest.length + 1 := by
              have ha := read_operand_length h2
              have hb := chomp_length cs2
              omega
            simp only [List.length_cons] at hf hg
            split
            · exact ih m cs4 _ (by omega) (by omega)
            · split
              · exact ih m cs4 _ (by omega) (by omega)
              · rfl

theorem rollLoop_nil (r : Expression) : rollLoop [] r = .ok r := rfl

theorem rollLoop_stop {cs : List Char} (r : Expression)
    (h1 : chomp cs = []) : rollLoop cs r = .ok r := by
  cases cs with
  | nil => rfl
  | cons c rest =>
    unfold rollLoop
    simp only [List.length_cons, rollLoopF, h1]

theorem rollLoop_missing {cs cs2 : List Char} {op : Char} (r : Expression)
    (hne : cs ≠ []) (h1 : chomp cs = op :: cs2)
    (h2 : read_operand (chomp cs2) = none) :
    rollLoop cs r = .error .missingOperand := by
  cases cs with
  | nil => exact absurd rfl hne
  | cons c rest =>
    unfold rollLoop
    simp only [List.length_cons, rollLoopF, h1, h2]

theorem rollLoop_invalid {cs cs2 cs4 : List Char} {op : Char} {rhs : Expression}
    (r : Expression) (hne : cs ≠ []) (h1 : chomp cs = op :: cs2)
    (hop1 : op ≠ '+') (hop2 : op ≠ '-')
    (h2 : read_operand (chomp cs2) = some (rhs, cs4)) :
    rollLoop cs r = .error .invalidRollDefinition := by
  cases cs with
  | nil => exact absurd rfl hne
  | cons c rest =>
    unfold rollLoop
    simp only [List.length_cons, rollLoopF, h1, h2, hop1, hop2, if_false]

theorem rollLoop_step_length {cs cs2 cs4 : List Char} {op : Char} {rhs : Expression}
    (h1 : chomp cs = op :: cs2) (h2 : read_operand (chomp cs2) = some (rhs, cs4)) :
    cs4.length < cs.length := by
  have ha := read_operand_length h2
  have hb := chomp_length cs2
  have hc := chomp_length cs
  rw [h1] at hc
  simp only [List.length_cons] at hc
  omega

theorem rollLoop_step_add {cs cs2 cs4 : List Char} {rhs : Expression}
    (r : Expression) (hne : cs ≠ []) (h1 : chomp cs = '+' :: cs2)
    (h2 : read_operand (chomp cs2) = some (rhs, cs4)) :
    rollLoop cs r = rollLoop cs4 (.add r rhs) := by
  cases cs with
  | nil => exact absurd rfl hne
  | cons c rest =>
    unfold rollLoop
    simp only [List.length_cons, rollLoopF, h1, h2, if_true]
    exact rollLoopF_mono _ _ _ _
      (by have := rollLoop_step_length h1 h2; simpa using this) (Nat.lt_succ_self _)

theorem rollLoop_step_sub {cs cs2 cs4 : List Char} {rhs : Expression}
    (r : Expression) (hne : cs ≠ []) (h1 : chomp cs = '-' :: cs2)
    (h2 : read_operand (chomp cs2) = some (rhs, cs4)) :
    rollLoop cs r = rollLoop cs4 (.sub r rhs) := by
  cases cs with
  | nil => exact absurd rfl hne
  | cons c rest =>
    unfold rollLoop
    simp only [List.length_cons, rollLoopF, h1, h2]
    norm_num
    exact rollLoopF_mono _ _ _ _
      (by have := rollLoop_step_length h1 h2; simpa using this) (Nat.lt_succ_self _)

/-! ## Structural invariants of parsed trees -/

theorem isLeaf_rhsLeaf {e : Expression} (h : isLeaf e = true) : rhsLeaf e = true := by
  cases e <;> simp_all [isLeaf, rhsLeaf]

theorem read_operand_some {cs cs' : List Char} {e : Expression}
    (h : read_operand cs = some (e, cs')) :
    isLeaf e = true ∧ wfE e = true := by
  cases cs with
  | nil => simp [read_operand] at h
  | cons c rest =>
    simp only [read_operand] at h
    split at h
    · split at h
      · simp only [Option.some.injEq, Prod.mk.injEq] at h
        rw [← h.1]
        refine ⟨rfl, ?_⟩
        simp only [wfE, Bool.and_eq_true, decide_eq_true_eq]
        exact ⟨read_u32_lt _ (by norm_num), read_u32_lt _ (by norm_num)⟩
      · simp only [Option.some.injEq, Prod.mk.injEq] at h
        rw [← h.1]
        refine ⟨rfl, ?_⟩
        have hb := u32_as_i32_bounds (read_u32_lt (c :: rest) (show (1:Nat) < 4294967296 by norm_num))
        simp only [wfE, Bool.and_eq_true, decide_eq_true_eq]
        exact ⟨hb.1, hb.2⟩
    · exact absurd h (by simp)

theorem rollLoopF_inv :
    ∀ (fuel : Nat) (cs : List Char) (acc e : Expression),
      rollLoopF fuel cs acc = .ok e →
      rhsLeaf acc = true → wfE acc = true →
      rhsLeaf e = true ∧ wfE e = true := by
  intro fuel
  induction fuel with
  | zero =>
    intro cs acc e h ha hw
    cases cs with
    | nil => cases h; exact ⟨ha, hw⟩
    | cons c rest => cases h; exact ⟨ha, hw⟩
  | succ n ih =>
    intro cs acc e h ha hw
    cases cs with
    | nil => cases h; exact ⟨ha, hw⟩
    | cons c rest =>
      simp only [rollLoopF] at h
      rcases h1 : chomp (c :: rest) with _ | ⟨op, cs2⟩
      · simp only [h1] at h; cases h; exact ⟨ha, hw⟩
      · simp only [h1] at h
        rcases h2 : read_operand (chomp cs2) with _ | ⟨rhs, cs4⟩
        · simp only [h2] at h; cases h
        · simp only [h2] at h
          have hleaf := read_operand_some h2
          split at h
          · refine ih cs4 _ e h ?_ ?_
            · simp [rhsLeaf, ha, hleaf.1, isLeaf_rhsLeaf hleaf.1]
            · simp [wfE, hw, hleaf.2]
          · split at h
            · refine ih cs4 _ e h ?_ ?_
              · simp [rhsLeaf, ha, hleaf.1, isLeaf_rhsLeaf hleaf.1]
              · simp [wfE, hw, hleaf.2]
            · cases h

theorem roll_ok_inv {s : String} {e : Expression} (h : roll s = .ok e) :
    rhsLeaf e = true ∧ wfE e = true := by
  simp only [roll] at h
  rcases h0 : read_operand (chomp s.data) with _ | ⟨r, cs1⟩
  · rw [h0] at h; cases h
  · rw [h0] at h
    have hl := read_operand_some h0
    exact rollLoopF_inv _ cs1 r e h (isLeaf_rhsLeaf hl.1) hl.2

/-! ## Decimal rendering round-trips through `read_u32` -/

/-- Plain (non-wrapping) left-to-right decimal accumulation. -/
def pfoldl : Nat → List Nat → Nat
  | acc, [] => acc
  | acc, d :: rest => pfoldl (acc * 10 + d) rest

/-- Wrapping decimal accumulation, the arithmetic of `read_u32`. -/
def wfoldl : Nat → List Nat → Nat
  | acc, [] => acc
  | acc, d :: rest => wfoldl ((acc * 10 + d) % 4294967296) rest

/-- Little-endian decimal valuation. -/
def ofLE : List Nat → Nat
  | [] => 0
  | d :: rest => d + 10 * ofLE rest

theorem pfoldl_le (ds : List Nat) : ∀ acc, acc ≤ pfoldl acc ds := by
  induction ds with
  | nil => intro acc; exact Nat.le_refl _
  | cons d rest ih =>
    intro acc
    exact Nat.le_trans (by omega) (ih (acc * 10 + d))

theorem wfoldl_eq_pfoldl (ds : List Nat) :
    ∀ acc, pfoldl acc ds < 4294967296 → wfoldl acc ds = pfoldl acc ds := by
  induction ds with
  | nil => intro acc h; rfl
  | cons d rest ih =>
    intro acc h
    simp only [wfoldl, pfoldl] at *
    have h1 : acc * 10 + d ≤ pfoldl (acc * 10 + d) rest := pfoldl_le rest _
    rw [Nat.mod_eq_of_lt (by omega)]
    exact ih _ h

theorem pfoldl_append (xs ys : List Nat) :
    ∀ acc, pfoldl acc (xs ++ ys) = pfoldl (pfoldl acc xs) ys := by
  induction xs with
  | nil => intro acc; rfl
  | cons d rest ih =>
    intro acc
    simp only [List.cons_append, pfoldl]
    exact ih _

theorem pfoldl_reverse (L : List Nat) :
    ∀ acc, pfoldl acc L.reverse = acc * 10 ^ L.length + ofLE L := by
  induction L with
  | nil => intro acc; simp [pfoldl, ofLE]
  | cons d rest ih =>
    intro acc
    simp only [List.reverse_cons, ofLE, List.length_cons]
    rw [pfoldl_append, ih]
    simp only [pfoldl]
    ring

theorem ofLE_digitsLE : ∀ (fuel n : Nat), n ≤ fuel → ofLE (digitsLE fuel n) = n := by
  intro fuel
  induction fuel with
  | zero =>
    intro n h
    interval_cases n
    rfl
  | succ m ih =>
    intro n h
    by_cases h0 : n = 0
    · simp [digitsLE, h0, ofLE]
    · simp only [digitsLE, h0, if_false, ofLE]
      rw [ih (n / 10) (by omega)]
      omega

theorem digitsLE_lt (fuel : Nat) : ∀ n d, d ∈ digitsLE fuel n → d < 10 := by
  induction fuel with
  | zero => intro n d h; simp [digitsLE] at h
  | succ m ih =>
    intro n d h
    simp only [digitsLE] at h
    split at h
    · simp at h
    · rcases List.mem_cons.mp h with h | h
      · rw [h]; exact Nat.mod_lt _ (by norm_num)
      · exact ih _ _ h

theorem digitsLE_ne_nil {n : Nat} (h : n ≠ 0) : digitsLE n n ≠ [] := by
  cases n with
  | zero => exact absurd rfl h
  | succ m => simp [digitsLE]

theorem digit_char_facts {d : Nat} (h : d < 10) :
    (Char.ofNat (48 + d)).isDigit = true ∧ (Char.ofNat (48 + d)).toNat - 48 = d ∧
    (Char.ofNat (48 + d)).toNat = 48 + d ∧
    rustIsWhitespace (Char.ofNat (48 + d)) = false ∧
    Char.ofNat (48 + d) ≠ 'd' := by
  interval_cases d <;> exact ⟨rfl, rfl, rfl, rfl, by decide⟩

/-- No-digit condition on the continuation text. -/
def headNotDigit : List Char → Prop
  | [] => True
  | c :: _ => c.isDigit = false

theorem readDigits_digits (ds : List Nat) :
    ∀ (t : List Char) (acc : Nat), (∀ d ∈ ds, d < 10) → headNotDigit t →
      readDigits ((ds.map fun d => Char.ofNat (48 + d)) ++ t) acc = (wfoldl acc ds, t) := by
  induction ds with
  | nil =>
    intro t acc _ ht
    cases t with
    | nil => rfl
    | cons c rest =>
      simp only [List.map_nil, List.nil_append, readDigits]
      have hc : c.isDigit = false := ht
      rw [hc]
      simp [wfoldl]
  | cons d rest ih =>
    intro t acc hlt ht
    have hd : d < 10 := hlt d (List.mem_cons_self _ _)
    have hfacts := digit_char_facts hd
    simp only [List.map_cons, List.cons_append, readDigits, hfacts.1, if_true, hfacts.2.1,
      List.append_eq]
    rw [ih t _ (fun x hx => hlt x (List.mem_cons_of_mem _ hx)) ht]
    simp [wfoldl]

theorem natToDecChars_eq_map (n : Nat) :
    ∃ ds : List Nat, ds ≠ [] ∧ (∀ d ∈ ds, d < 10) ∧
      natToDecChars n = ds.map (fun d => Char.ofNat (48 + d)) ∧ pfoldl 0 ds = n := by
  by_cases h0 : n = 0
  · exact ⟨[0], by simp, by simp, by simp [natToDecChars, h0], by simp [pfoldl, h0]⟩
  · refine ⟨(digitsLE n n).reverse, ?_, ?_, ?_, ?_⟩
    · simpa using digitsLE_ne_nil h0
    · intro d hd
      exact digitsLE_lt n n d (List.mem_reverse.mp hd)
    · simp [natToDecChars, h0]
    · rw [pfoldl_reverse]
      simpa using ofLE_digitsLE n n (Nat.le_refl _)

theorem readDigits_natToDecChars {n : Nat} (hn : n < 4294967296) (t : List Char)
    (ht : headNotDigit t) : readDigits (natToDecChars n ++ t) 0 = (n, t) := by
  obtain ⟨ds, hne, hlt, hmap, hval⟩ := natToDecChars_eq_map n
  rw [hmap, readDigits_digits ds t 0 hlt ht]
  rw [wfoldl_eq_pfoldl ds 0 (by rw [hval]; exact hn), hval]

theorem natToDecChars_head (n : Nat) :
    ∃ c cs, natToDecChars n = c :: cs ∧ c.isDigit = true ∧
      rustIsWhitespace c = false ∧ c ≠ 'd' := by
  obtain ⟨ds, hne, hlt, hmap, _⟩ := natToDecChars_eq_map n
  cases ds with
  | nil => exact absurd rfl hne
  | cons d rest =>
    have hfacts := digit_char_facts (hlt d (List.mem_cons_self _ _))
    exact ⟨_, _, by simpa using hmap, hfacts.1, hfacts.2.2.2.1, hfacts.2.2.2.2⟩

theorem read_u32_natToDecChars {n : Nat} (hn : n < 4294967296) (t : List Char)
    (ht : headNotDigit t) (d : Nat) : read_u32 (natToDecChars n ++ t) d = (n, t) := by
  obtain ⟨c, cs, hc, hdig, _, _⟩ := natToDecChars_head n
  have hrd := readDigits_natToDecChars hn t ht
  rw [hc] at hrd ⊢
  simp only [List.cons_append, read_u32, hdig, if_true]
  simpa using hrd

/-! ## A rendered leaf re-parses to itself -/

/-- The continuation text cannot extend an operand: its head is neither a
digit nor `d`. -/
def headSafe : List Char → Prop
  | [] => True
  | c :: _ => c.isDigit = false ∧ c ≠ 'd'

theorem headSafe_headNotDigit {t : List Char} (h : headSafe t) : headNotDigit t := by
  cases t with
  | nil => trivial
  | cons c rest => exact h.1

theorem u32_as_i32_natAbs {v : Int} (h0 : 0 ≤ v) (h1 : v < 2147483648) :
    u32_as_i32 v.natAbs = v := by
  unfold u32_as_i32
  rw [if_pos (by omega)]
  omega

theorem read_operand_renderChars {e : Expression} (hleaf : isLeaf e = true)
    (hwf : wfE e = true) (hnn : scalarsNonneg e = true) (t : List Char)
    (ht : headSafe t) : read_operand (renderChars e ++ t) = some (e, t) := by
  cases e with
  | add l r => simp [isLeaf] at hleaf
  | sub l r => simp [isLeaf] at hleaf
  | scalar v =>
    simp only [wfE, Bool.and_eq_true, decide_eq_true_eq] at hwf
    simp only [scalarsNonneg, decide_eq_true_eq] at hnn
    have hv : ¬ v < 0 := by omega
    simp only [renderChars, hv, if_false, List.nil_append]
    have hlt : v.natAbs < 4294967296 := by omega
    obtain ⟨c, cs, hc, hdig, hws, hcd⟩ := natToDecChars_head v.natAbs
    have hru : read_u32 (natToDecChars v.natAbs ++ t) 1 = (v.natAbs, t) :=
      read_u32_natToDecChars hlt t (headSafe_headNotDigit ht) 1
    rw [hc] at hru ⊢
    simp only [List.cons_append] at hru ⊢
    have hg : c.isDigit = true ∨ c = 'd' := Or.inl hdig
    simp only [read_operand, hg, if_true, hru]
    split
    · exact absurd rfl ht.2
    · rw [u32_as_i32_natAbs hnn (by omega)]
  | diceRoll count sides =>
    simp only [wfE, Bool.and_eq_true, decide_eq_true_eq] at hwf
    obtain ⟨hcount, hsides⟩ := hwf
    have hY : read_u32 (natToDecChars sides ++ t) 6 = (sides, t) :=
      read_u32_natToDecChars hsides t (headSafe_headNotDigit ht) 6
    by_cases h1 : count = 1
    · subst h1
      have hrw : renderChars (.diceRoll 1 sides) ++ t = 'd' :: (natToDecChars sides ++ t) := by
        simp [renderChars]
      rw [hrw]
      have hD : read_u32 ('d' :: (natToDecChars sides ++ t)) 1
          = (1, 'd' :: (natToDecChars sides ++ t)) := by
        simp [read_u32]
      have hg : ('d').isDigit = true ∨ 'd' = 'd' := Or.inr rfl
      simp only [read_operand, hg, if_true, hD, hY]
      simp
    · have hC : read_u32 (natToDecChars count ++ ('d' :: (natToDecChars sides ++ t))) 1
          = (count, 'd' :: (natToDecChars sides ++ t)) :=
        read_u32_natToDecChars hcount _ (by show ('d').isDigit = false; rfl) 1
      obtain ⟨c, cs0, hc, hdig, _, _⟩ := natToDecChars_head count
      simp only [renderChars, if_neg h1, List.append_assoc, List.cons_append]
      rw [hc] at hC ⊢
      simp only [List.cons_append] at hC ⊢
      have hg : c.isDigit = true ∨ c = 'd' := Or.inl hdig
      simp only [read_operand, hg, if_true, hC, hY]

/-! ## Chains: spine decomposition and the loop round-trip -/

/-- Rebuild a left-associative chain from a first operand and a list of
(operator, operand) steps; `true` is `+`. -/
def buildChain : Expression → List (Bool × Expression) → Expression
  | acc, [] => acc
  | acc, (b, leaf) :: rest => buildChain (cond b (.add acc leaf) (.sub acc leaf)) rest

/-- The rendering of the operator/operand steps of a chain. -/
def renderOpsChars : List (Bool × Expression) → List Char
  | [] => []
  | (b, leaf) :: rest =>
    ' ' :: cond b '+' '-' :: ' ' :: (renderChars leaf ++ renderOpsChars rest)

/-- Leaf-and-invariants property of a chain step. -/
def goodStep (p : Bool × Expression) : Prop :=
  isLeaf p.2 = true ∧ wfE p.2 = true ∧ scalarsNonneg p.2 = true

theorem buildChain_append (xs ys : List (Bool × Expression)) :
    ∀ acc, buildChain acc (xs ++ ys) = buildChain (buildChain acc xs) ys := by
  induction xs with
  | nil => intro acc; rfl
  | cons p rest ih =>
    intro acc
    rcases p with ⟨b, leaf⟩
    simp only [List.cons_append, buildChain]
    exact ih _

theorem renderOpsChars_append (xs ys : List (Bool × Expression)) :
    renderOpsChars (xs ++ ys) = renderOpsChars xs ++ renderOpsChars ys := by
  induction xs with
  | nil => rfl
  | cons p rest ih =>
    rcases p with ⟨b, leaf⟩
    simp [renderOpsChars, ih, List.append_assoc]

theorem chain_spine {e : Expression} (h : rhsLeaf e = true) (hw : wfE e = true)
    (hn : scalarsNonneg e = true) :
    ∃ (l0 : Expression) (ops : List (Bool × Expression)),
      isLeaf l0 = true ∧ wfE l0 = true ∧ scalarsNonneg l0 = true ∧
      (∀ p ∈ ops, goodStep p) ∧ buildChain l0 ops = e ∧
      renderChars e = renderChars l0 ++ renderOpsChars ops := by
  induction e with
  | scalar v =>
    exact ⟨.scalar v, [], rfl, hw, hn, by simp, rfl, by simp [renderOpsChars]⟩
  | diceRoll c s =>
    exact ⟨.diceRoll c s, [], rfl, hw, hn, by simp, rfl, by simp [renderOpsChars]⟩
  | add l r ihl ihr =>
    simp only [rhsLeaf, Bool.and_eq_true] at h
    simp only [wfE, Bool.and_eq_true] at hw
    simp only [scalarsNonneg, Bool.and_eq_true] at hn
    obtain ⟨l0, ops, h1, h2, h3, h4, h5, h6⟩ := ihl h.1.1 hw.1 hn.1
    refine ⟨l0, ops ++ [(true, r)], h1, h2, h3, ?_, ?_, ?_⟩
    · intro p hp
      rcases List.mem_append.mp hp with hp | hp
      · exact h4 p hp
      · simp only [List.mem_singleton] at hp
        rw [hp]
        exact ⟨h.2, hw.2, hn.2⟩
    · rw [buildChain_append, h5]
      simp [buildChain]
    · rw [renderOpsChars_append]
      simp only [renderChars, h6, renderOpsChars]
      simp [List.append_assoc]
  | sub l r ihl ihr =>
    simp only [rhsLeaf, Bool.and_eq_true] at h
    simp only [wfE, Bool.and_eq_true] at hw
    simp only [scalarsNonneg, Bool.and_eq_true] at hn
    obtain ⟨l0, ops, h1, h2, h3, h4, h5, h6⟩ := ihl h.1.1 hw.1 hn.1
    refine ⟨l0, ops ++ [(false, r)], h1, h2, h3, ?_, ?_, ?_⟩
    · intro p hp
      rcases List.mem_append.mp hp with hp | hp
      · exact h4 p hp
      · simp only [List.mem_singleton] at hp
        rw [hp]
        exact ⟨h.2, hw.2, hn.2⟩
    · rw [buildChain_append, h5]
      simp [buildChain]
    · rw [renderOpsChars_append]
      simp only [renderChars, h6, renderOpsChars]
      simp [List.append_assoc]

theorem renderChars_leaf_head {e : Expression} (hleaf : isLeaf e = true)
    (hnn : scalarsNonneg e = true) :
    ∃ c cs, renderChars e = c :: cs ∧ rustIsWhitespace c = false := by
  cases e with
  | scalar v =>
    simp only [scalarsNonneg, decide_eq_true_eq] at hnn
    have hv : ¬ v < 0 := by omega
    obtain ⟨c, cs, hc, _, hws, _⟩ := natToDecChars_head v.natAbs
    exact ⟨c, cs, by simp [renderChars, hv, hc], hws⟩
  | diceRoll count sides =>
    by_cases h1 : count = 1
    · subst h1
      exact ⟨'d', natToDecChars sides, by simp [renderChars], by decide⟩
    · obtain ⟨c, cs, hc, _, hws, _⟩ := natToDecChars_head count
      refine ⟨c, cs ++ 'd' :: natToDecChars sides, ?_, hws⟩
      simp [renderChars, h1, hc]
  | add l r => simp [isLeaf] at hleaf
  | sub l r => simp [isLeaf] at hleaf

theorem headSafe_renderOpsChars (ops : List (Bool × Expression)) :
    headSafe (renderOpsChars ops) := by
  cases ops with
  | nil => trivial
  | cons p rest =>
    rcases p with ⟨b, leaf⟩
    exact ⟨by decide, by decide⟩

theorem rollLoop_renderOpsChars (ops : List (Bool × Expression)) :
    ∀ acc, (∀ p ∈ ops, goodStep p) →
      rollLoop (renderOpsChars ops) acc = .ok (buildChain acc ops) := by
  induction ops with
  | nil => intro acc _; rfl
  | cons p rest ih =>
    intro acc hops
    rcases p with ⟨b, leaf⟩
    obtain ⟨hleaf, hwf, hnn⟩ := hops _ (List.mem_cons_self _ _)
    have hrd : read_operand (renderChars leaf ++ renderOpsChars rest)
        = some (leaf, renderOpsChars rest) :=
      read_operand_renderChars hleaf hwf hnn _ (headSafe_renderOpsChars rest)
    have hch : chomp (' ' :: (renderChars leaf ++ renderOpsChars rest))
        = renderChars leaf ++ renderOpsChars rest := by
      rw [chomp_cons_ws (by decide)]
      obtain ⟨c0, cs0, hc0, hws0⟩ := renderChars_leaf_head hleaf hnn
      rw [hc0, List.cons_append, chomp_cons_not_ws hws0]
    have hrest : ∀ p ∈ rest, goodStep p := fun p hp => hops p (List.mem_cons_of_mem _ hp)
    cases b with
    | true =>
      have h1 : chomp (renderOpsChars ((true, leaf) :: rest))
          = '+' :: (' ' :: (renderChars leaf ++ renderOpsChars rest)) := by
        simp only [renderOpsChars, cond]
        rw [chomp_cons_ws (by decide), chomp_cons_not_ws (by decide)]
      rw [rollLoop_step_add acc (by simp [renderOpsChars]) h1 (by rw [hch]; exact hrd)]
      rw [ih _ hrest]
      simp [buildChain]
    | false =>
      have h1 : chomp (renderOpsChars ((false, leaf) :: rest))
          = '-' :: (' ' :: (renderChars leaf ++ renderOpsChars rest)) := by
        simp only [renderOpsChars, cond]
        rw [chomp_cons_ws (by decide), chomp_cons_not_ws (by decide)]
      rw [rollLoop_step_sub acc (by simp [renderOpsChars]) h1 (by rw [hch]; exact hrd)]
      rw [ih _ hrest]
      simp [buildChain]

theorem roll_renderChars {e : Expression} (h : rhsLeaf e = true) (hw : wfE e = true)
    (hn : scalarsNonneg e = true) : roll (render e) = .ok e := by
  obtain ⟨l0, ops, h1, h2, h3, h4, h5, h6⟩ := chain_spine h hw hn
  obtain ⟨c0, cs0, hc0, hws0⟩ := renderChars_leaf_head h1 h3
  have hrd := read_operand_renderChars h1 h2 h3 _ (headSafe_renderOpsChars ops)
  have hA : read_operand (chomp (render e).data) = some (l0, renderOpsChars ops) := by
    rw [show (render e).data = renderChars e from rfl, h6, hc0, List.cons_append,
      chomp_cons_not_ws hws0, ← List.cons_append, ← hc0]
    exact hrd
  simp only [roll, hA]
  rw [rollLoop_renderOpsChars ops l0 h4, h5]

/-! ## Evaluation bounds and determinism -/

theorem diceSum_bounds {sides : Nat} (hs : 1 ≤ sides) (draws : Nat → Nat) (i : Nat) :
    ∀ n, n * sides ≤ 2147483647 →
      ∃ s, diceSum sides draws i n = some s ∧ n ≤ s ∧ s ≤ n * sides := by
  intro n
  induction n with
  | zero => intro h; exact ⟨0, rfl, Nat.le_refl _, Nat.zero_le _⟩
  | succ m ih =>
    intro h
    rw [Nat.succ_mul] at h
    obtain ⟨s, hds, hlo, hhi⟩ := ih (by omega)
    have hroll : roll_die (draws (i + m)) sides = some (draws (i + m) % sides + 1) := by
      unfold roll_die
      rw [if_neg (by omega)]
    have hr_hi : draws (i + m) % sides + 1 ≤ sides := by
      have := Nat.mod_lt (draws (i + m)) (show 0 < sides by omega)
      omega
    have hnowrap : s + (draws (i + m) % sides + 1) < 4294967296 := by omega
    refine ⟨(s + (draws (i + m) % sides + 1)) % 4294967296, ?_, ?_, ?_⟩
    · simp only [diceSum, hds, hroll]
    · rw [Nat.mod_eq_of_lt hnowrap]
      omega
    · rw [Nat.mod_eq_of_lt hnowrap, Nat.succ_mul]
      omega

theorem noDice_get_value {e : Expression} (h : noDice e = true) :
    ∃ v : Int, ∀ (draws : Nat → Nat) (i : Nat), get_value e draws i = some (v, i) := by
  induction e with
  | scalar w => exact ⟨w, fun draws i => rfl⟩
  | diceRoll c s => simp [noDice] at h
  | add l r ihl ihr =>
    simp only [noDice, Bool.and_eq_true] at h
    obtain ⟨a, ha⟩ := ihl h.1
    obtain ⟨b, hb⟩ := ihr h.2
    exact ⟨i32wrap (a + b), fun draws i => by simp [get_value, ha draws i, hb draws i]⟩
  | sub l r ihl ihr =>
    simp only [noDice, Bool.and_eq_true] at h
    obtain ⟨a, ha⟩ := ihl h.1
    obtain ⟨b, hb⟩ := ihr h.2
    exact ⟨i32wrap (a - b), fun draws i => by simp [get_value, ha draws i, hb draws i]⟩

/-! ## Claim theorems -/

/-- Claim C1, counterexample: the all-digit input "4294967295" is
well-formed (parse accepts it and yields the scalar -1 through the
`u32`-to-`i32` cast), but its rendering "-1" fails to re-parse, so the
round-trip claim fails as stated for this input. -/
theorem C1_counterexample :
    roll "4294967295" = .ok (.scalar (-1)) ∧
    render (.scalar (-1)) = "-1" ∧
    roll "-1" = .error .invalidRollDefinition :=
  ⟨rfl, rfl, rfl⟩

/-- Claim C1, amended: for every well-formed input whose parsed tree
contains no negative scalar, rendering the parsed tree and re-parsing the
rendered text succeeds and yields a tree whose rendering is identical to
the first rendering. -/
theorem C1_round_trip {s : String} {e : Expression} (h : roll s = .ok e)
    (hn : scalarsNonneg e = true) :
    ∃ e2, roll (render e) = .ok e2 ∧ render e2 = render e := by
  obtain ⟨hleaf, hwf⟩ := roll_ok_inv h
  exact ⟨e, roll_renderChars hleaf hwf hn, rfl⟩

/-- Claim C1, witness: the amended round trip at the parse of
"3d12 - 8 + 10d8". -/
theorem C1_witness :
    ∃ e2, roll (render (Expression.add (.sub (.diceRoll 3 12) (.scalar 8))
        (.diceRoll 10 8))) = .ok e2 ∧
      render e2 = render (Expression.add (.sub (.diceRoll 3 12) (.scalar 8))
        (.diceRoll 10 8)) :=
  C1_round_trip (s := "3d12 - 8 + 10d8") rfl rfl

/-- Claim C2, counterexample: a die-roll node with count 1 and sides
2^31 (both representable `u32` values, so `sides ≥ 1`) can evaluate to
-2^31 through the `u32` sum cast `as i32`, which lies outside
[count, count * sides], refuting the claim as stated. -/
theorem C2_counterexample :
    get_value (.diceRoll 1 2147483648) (fun _ => 2147483647) 0
      = some (-2147483648, 1) ∧
    ¬ ((1 : Int) ≤ -2147483648) :=
  ⟨rfl, by decide⟩

/-- Claim C2, amended: for every die-roll node with count ≥ 0 and
sides ≥ 1 such that count * sides fits in an `i32`
(count * sides ≤ 2^31 - 1, so neither the `u32` sum nor the `as i32`
cast can wrap), every evaluation returns a value in
[count, count * sides]; in particular it returns exactly 0 when
count = 0. -/
theorem C2_die_roll_bounds {count sides : Nat} (draws : Nat → Nat) (i : Nat)
    (hs : 1 ≤ sides) (hb : count * sides ≤ 2147483647) :
    ∃ v : Int, get_value (.diceRoll count sides) draws i = some (v, i + count) ∧
      (count : Int) ≤ v ∧ v ≤ (count : Int) * (sides : Int) ∧
      (count = 0 → v = 0) := by
  obtain ⟨s, hds, hlo, hhi⟩ := diceSum_bounds hs draws i count hb
  have hcast : u32_as_i32 s = (s : Int) := by
    unfold u32_as_i32
    rw [if_pos (by omega)]
  refine ⟨u32_as_i32 s, by simp [get_value, hds], ?_, ?_, ?_⟩
  · rw [hcast]
    exact_mod_cast hlo
  · rw [hcast]
    exact_mod_cast hhi
  · intro h0
    rw [hcast]
    subst h0
    simp only [Nat.zero_mul, Nat.le_zero] at hhi
    exact_mod_cast hhi

/-- Claim C2, witness: the amended bounds at count 2, sides 6, on an
arbitrary concrete draw stream. -/
theorem C2_witness :
    ∃ v : Int, get_value (.diceRoll 2 6) (fun n => n) 0 = some (v, 0 + 2) ∧
      ((2 : Nat) : Int) ≤ v ∧ v ≤ ((2 : Nat) : Int) * ((6 : Nat) : Int) ∧
      ((2 : Nat) = 0 → v = 0) :=
  C2_die_roll_bounds (fun n => n) 0 (by decide) (by decide)

/-- Claim C3: parse fails with `InvalidRollDefinition` on every input that
chomps to nothing (empty or all whitespace) and on every input whose first
non-whitespace character is neither a digit nor 'd'; and the parser main
loop fails with `MissingOperand` whenever it consumes an operator
character and no valid operand follows. -/
theorem C3_failure_classification :
    (∀ s : String, chomp s.data = [] → roll s = .error .invalidRollDefinition) ∧
    (∀ (s : String) (c : Char) (rest : List Char), chomp s.data = c :: rest →
      c.isDigit = false → c ≠ 'd' → roll s = .error .invalidRollDefinition) ∧
    (∀ (cs cs2 : List Char) (op : Char) (r : Expression), cs ≠ [] →
      chomp cs = op :: cs2 → read_operand (chomp cs2) = none →
      rollLoop cs r = .error .missingOperand) := by
  refine ⟨?_, ?_, ?_⟩
  · intro s h
    simp [roll, h, read_operand]
  · intro s c rest h hdig hd
    have hro : read_operand (chomp s.data) = none := by
      rw [h]
      simp [read_operand, hdig, hd]
    simp [roll, hro]
  · intro cs cs2 op r hne h1 h2
    exact rollLoop_missing r hne h1 h2

/-- Claim C3, witness: the three failure classes at concrete inputs
(all-whitespace input, input starting with an operator, and the loop state
reached by "d6 +" right after consuming its '+'). -/
theorem C3_witness :
    roll "   " = .error .invalidRollDefinition ∧
    roll "+3" = .error .invalidRollDefinition ∧
    rollLoop (' ' :: ['+']) (.diceRoll 1 6) = .error .missingOperand :=
  ⟨C3_failure_classification.1 "   " rfl,
   C3_failure_classification.2.1 "+3" '+' ['3'] rfl rfl (by decide),
   C3_failure_classification.2.2 (' ' :: ['+']) [] '+' (.diceRoll 1 6)
     (by simp) rfl rfl⟩

/-- Claim C4: in the parser main loop, operand absence is checked before
operator validity: if no valid operand follows the consumed operator
character the loop fails with `MissingOperand` whatever that character
is, and if a valid operand follows but the character is neither '+' nor
'-' the loop fails with `InvalidRollDefinition`. -/
theorem C4_operand_before_operator :
    (∀ (cs cs2 : List Char) (op : Char) (r : Expression), cs ≠ [] →
      chomp cs = op :: cs2 → read_operand (chomp cs2) = none →
      rollLoop cs r = .error .missingOperand) ∧
    (∀ (cs cs2 cs4 : List Char) (op : Char) (r rhs : Expression), cs ≠ [] →
      chomp cs = op :: cs2 → op ≠ '+' → op ≠ '-' →
      read_operand (chomp cs2) = some (rhs, cs4) →
      rollLoop cs r = .error .invalidRollDefinition) :=
  ⟨fun _ _ _ r hne h1 h2 => rollLoop_missing r hne h1 h2,
   fun _ _ _ _ r _ hne h1 ho1 ho2 h2 => rollLoop_invalid r hne h1 ho1 ho2 h2⟩

/-- Claim C4, witness: the loop state of "d6 *" (operator '*' with
nothing after it) gives `MissingOperand`, and the loop state of "d6 * 3"
(operator '*' with the valid operand 3 after it) gives
`InvalidRollDefinition`. -/
theorem C4_witness :
    rollLoop ['*'] (.diceRoll 1 6) = .error .missingOperand ∧
    rollLoop ('*' :: [' ', '3']) (.diceRoll 1 6) = .error .invalidRollDefinition :=
  ⟨C4_operand_before_operator.1 ['*'] [] '*' (.diceRoll 1 6) (by simp) rfl rfl,
   C4_operand_before_operator.2 ('*' :: [' ', '3']) [' ', '3'] [] '*'
     (.diceRoll 1 6) (.scalar 3) (by simp) rfl (by decide) (by decide) rfl⟩

/-- Claim C5, counterexample: `roll_die` performs `% sides` without any
guard, so with sides = 0 the sampling operation faults (modulo by zero),
and such a node is reachable: "d0" parses to a die roll with sides 0
whose evaluation faults. -/
theorem C5_counterexample :
    roll "d0" = .ok (.diceRoll 1 0) ∧
    roll_die 0 0 = none ∧
    get_value (.diceRoll 1 0) (fun _ => 0) 0 = none :=
  ⟨rfl, rfl, rfl⟩

/-- Claim C5, amended: evaluating a die-roll node with sides = 0 is NOT
guarded: `roll_die` faults by modulo-by-zero for every drawn sample, and
every evaluation of the node parsed from "d0" faults, whatever the
randomness stream. -/
theorem C5_unguarded_mod_zero :
    roll "d0" = .ok (.diceRoll 1 0) ∧
    (∀ rng : Nat, roll_die rng 0 = none) ∧
    (∀ (draws : Nat → Nat) (i : Nat), get_value (.diceRoll 1 0) draws i = none) := by
  refine ⟨rfl, fun rng => rfl, fun draws i => ?_⟩
  simp [get_value, diceSum, roll_die]

/-- Claim C6: every tree returned by a successful parse is a
left-associative chain: the rhs child of every Add and every Subtract node
is a leaf (Scalar or DieRoll), never itself a compound node. -/
theorem C6_left_chain {s : String} {e : Expression} (h : roll s = .ok e) :
    rhsLeaf e = true :=
  (roll_ok_inv h).1

/-- Claim C6, witness: the invariant at the parse of "3d12 - 8 + 10d8". -/
theorem C6_witness :
    rhsLeaf (Expression.add (.sub (.diceRoll 3 12) (.scalar 8))
      (.diceRoll 10 8)) = true :=
  C6_left_chain (s := "3d12 - 8 + 10d8") rfl

/-- Claim C7: each concrete scenario parses successfully and renders to
exactly the listed canonical form (defaults count = 1 and sides = 6
applied, count omitted when 1, whitespace normalized). -/
theorem C7_concrete_scenarios :
    (roll "d").map render = .ok "d6" ∧
    (roll "d6").map render = .ok "d6" ∧
    (roll "3d").map render = .ok "3d6" ∧
    (roll "d12").map render = .ok "d12" ∧
    (roll "   d12").map render = .ok "d12" ∧
    (roll "d12 + 52").map render = .ok "d12 + 52" ∧
    (roll "d12 - 8").map render = .ok "d12 - 8" ∧
    (roll "3d12 - 8 + 10d8").map render = .ok "3d12 - 8 + 10d8" :=
  ⟨rfl, rfl, rfl, rfl, rfl, rfl, rfl, rfl⟩

/-- Claim C8: a tree built only from Scalar, Add and Subtract nodes
evaluates to one fixed value independent of the randomness source (and of
the draw position), so two calls to evaluate return the same value. -/
theorem C8_scalar_only_deterministic {e : Expression} (h : noDice e = true) :
    ∃ v : Int, ∀ (draws : Nat → Nat) (i : Nat), get_value e draws i = some (v, i) :=
  noDice_get_value h

/-- Claim C8, witness: determinism at the scalar-only tree (2 + 3) - 1. -/
theorem C8_witness :
    ∃ v : Int, ∀ (draws : Nat → Nat) (i : Nat),
      get_value (Expression.sub (.add (.scalar 2) (.scalar 3)) (.scalar 1))
        draws i = some (v, i) :=
  C8_scalar_only_deterministic rfl

/-- Claim C9: the parser reads "4294967295" as a `u32` and stores it cast
to `i32`, producing the negative scalar -1, which renders as "-1", a
string that itself fails to re-parse because it starts with '-'. -/
theorem C9_u32_cast_negative_scalar :
    roll "4294967295" = .ok (.scalar (-1)) ∧
    ((-1 : Int) < 0) ∧
    render (.scalar (-1)) = "-1" ∧
    roll "-1" = .error .invalidRollDefinition :=
  ⟨rfl, by decide, rfl, rfl⟩

/-- Claim C10: parse terminates on every finite input, returning either
Ok or Err; each iteration of the main loop consumes at least one
character (the remaining character count strictly decreases). -/
theorem C10_parse_total :
    (∀ s : String, (∃ e, roll s = .ok e) ∨ (∃ err, roll s = .error err)) ∧
    (∀ (cs cs2 cs4 : List Char) (op : Char) (rhs : Expression),
      chomp cs = op :: cs2 → read_operand (chomp cs2) = some (rhs, cs4) →
      cs4.length < cs.length) := by
  refine ⟨?_, ?_⟩
  · intro s
    cases h : roll s with
    | error err => exact Or.inr ⟨err, rfl⟩
    | ok e => exact Or.inl ⟨e, rfl⟩
  · intro cs cs2 cs4 op rhs h1 h2
    exact rollLoop_step_length h1 h2

/-- Claim C10, witness: totality at "d6", and the strict decrease at the
loop state of "d6 +3" right after its first operand. -/
theorem C10_witness :
    ((∃ e, roll "d6" = .ok e) ∨ (∃ err, roll "d6" = .error err)) ∧
    ([] : List Char).length < ('+' :: ['3']).length :=
  ⟨C10_parse_total.1 "d6",
   C10_parse_total.2 ('+' :: ['3']) ['3'] [] '+' (.scalar 3) rfl rfl⟩
